import Mathlib

/-!
Shallow embedding of the tinynn core (`core/layers.py`, `core/net.py`):
tensors, the Conv2D and MaxPool2D padding rules, the MaxPool2D forward and
backward passes, the Conv2D backward pass, the Dense / Dropout / Flatten /
Activation layers, sequential network backpropagation, and the
StructuredParam container.  Machine floats are modelled as rationals;
numpy failures (IndexError, ValueError, failing reshapes and broadcasts)
are modelled as `Option.none`.
-/

namespace TinyNN

/-- An n-dimensional array: a shape together with a total row-major
multi-index access function.  Reads outside the shape are irrelevant
(the claims only ever constrain in-range entries). -/
structure Tensor where
  shape : List Nat
  data : List Nat → ℚ

/-- Size of dimension `i` of a tensor (`t.shape[i]` in numpy). -/
def dim (t : Tensor) (i : Nat) : Nat := t.shape.getD i 0

/-- Entry of a rank-2 tensor. -/
def at2 (t : Tensor) (i j : Nat) : ℚ := t.data [i, j]

/-- Entry of a rank-4 tensor. -/
def at4 (t : Tensor) (n y x c : Nat) : ℚ := t.data [n, y, x, c]

/-- `np.zeros(shape)`. -/
def tZeros (shape : List Nat) : Tensor := ⟨shape, fun _ => 0⟩

/-- The padding mode string accepted by the layers. -/
inductive PadMode where
  | full
  | same
  | valid
deriving DecidableEq

/-- `Conv2D._get_padding(k_h, k_w, mode)`: returns the list
`[top, bottom, left, right]`.  Translated literally from the source; in
particular the FULL branch really is `[k_h-1, k_w-1, k_h-1, k_w-1]`
(the claims discuss this ordering).  Python integers and floor
division/modulo are modelled with `Int`, `Int.fdiv` and `Int.emod`. -/
def conv2d_get_padding (kh kw : Int) (mode : PadMode) : List Int :=
  match mode with
  | .full => [kh - 1, kw - 1, kh - 1, kw - 1]
  | .valid => [0, 0, 0, 0]
  | .same =>
    let p0 := (kh - 1).fdiv 2
    let p2 := (kw - 1).fdiv 2
    [p0, if kh.emod 2 = 0 then p0 + 1 else p0,
     p2, if kw.emod 2 = 0 then p2 + 1 else p2]

/-- `MaxPool2D._get_padding_1d(input_size, pool_size, stride, mode)`.
`same = true` models `mode == "SAME"`; any other mode pads zero.
All quantities are nonnegative, so Python `max(pool_size - stride, 0)`
is the truncated subtraction `pool_size - stride` on `Nat`.
The caller guarantees `stride > 0` (Python raises `ZeroDivisionError`
otherwise; the forward model rejects zero strides up front). -/
def maxpool_get_padding_1d (input_size pool_size stride : Nat) (same : Bool) : List Nat :=
  let n_pad :=
    if same then
      if input_size % stride = 0 then pool_size - stride
      else max pool_size stride - input_size % stride
    else 0
  let half := n_pad / 2
  if n_pad % 2 = 0 then [half, half] else [half, half + 1]

/-- The per-axis FULL padding as the specification words it:
`(k-1, k-1)` for each axis, i.e. `[kh-1, kh-1, kw-1, kw-1]` in
`[top, bottom, left, right]` order. -/
def spec_full_pad (kh kw : Int) : List Int :=
  [kh - 1, kh - 1, kw - 1, kw - 1]

/-- The per-axis SAME padding as the specification words it:
`(⌊(k-1)/2⌋, ⌊(k-1)/2⌋)` with the trailing pad incremented by 1 when `k`
is even. -/
def spec_same_pad (kh kw : Int) : List Int :=
  [(kh - 1).fdiv 2, (kh - 1).fdiv 2 + (if kh.emod 2 = 0 then 1 else 0),
   (kw - 1).fdiv 2, (kw - 1).fdiv 2 + (if kw.emod 2 = 0 then 1 else 0)]

/-- The MaxPool2D per-axis padding as the specification words it:
total pad `max(pool-stride,0)` when `input mod stride = 0`, otherwise
`max(pool,stride) - input mod stride`, split `(⌊pad/2⌋, ⌈pad/2⌉)`. -/
def spec_pool_pad (input_size pool_size stride : Nat) : List Nat :=
  let pad :=
    if input_size % stride = 0 then max (pool_size - stride) 0
    else max pool_size stride - input_size % stride
  [pad / 2, (pad + 1) / 2]

/-- Claim C4: SAME and VALID behave exactly as the specification's
formulas state, and kernel 3 gives SAME = (1,1), VALID = (0,0),
FULL = (2,2); but the FULL branch of `conv2d_get_padding` mixes the two
axes (`[kh-1, kw-1, kh-1, kw-1]` instead of `[kh-1, kh-1, kw-1, kw-1]`),
so for the non-square kernel (3,5) the code pads the height axis by
(2,4) rather than the claimed (2,2): the claim fails on the code there. -/
theorem claim_C4_conv_padding :
    (∀ kh kw : Int,
        conv2d_get_padding kh kw .valid = [0, 0, 0, 0] ∧
        conv2d_get_padding kh kw .same = spec_same_pad kh kw) ∧
    conv2d_get_padding 3 3 .same = [1, 1, 1, 1] ∧
    conv2d_get_padding 3 3 .valid = [0, 0, 0, 0] ∧
    conv2d_get_padding 3 3 .full = [2, 2, 2, 2] ∧
    conv2d_get_padding 3 5 .full = [2, 4, 2, 4] ∧
    spec_full_pad 3 5 = [2, 2, 4, 4] ∧
    conv2d_get_padding 3 5 .full ≠ spec_full_pad 3 5 := by
  refine ⟨fun kh kw => ⟨rfl, ?_⟩, by decide, by decide, by decide, by decide, by decide, by decide⟩
  simp only [conv2d_get_padding, spec_same_pad]
  rcases em (kh.emod 2 = 0) with h1 | h1 <;> rcases em (kw.emod 2 = 0) with h2 | h2 <;>
    simp [h1, h2]

/-- Claim C5: `maxpool_get_padding_1d` matches the specification's
formula in SAME mode — total pad `max(pool-stride,0)` if
`input mod stride = 0` else `max(pool,stride) - input mod stride`,
split `(⌊pad/2⌋, ⌈pad/2⌉)` — pads zero in VALID mode, and yields
`(0, 1)` for input 5, pool 2, stride 2 in SAME mode. -/
theorem claim_C5_maxpool_padding (input_size pool_size stride : Nat)
    (hs : 0 < stride) :
    maxpool_get_padding_1d input_size pool_size stride true
      = spec_pool_pad input_size pool_size stride ∧
    maxpool_get_padding_1d input_size pool_size stride false = [0, 0] ∧
    maxpool_get_padding_1d 5 2 2 true = [0, 1] := by
  have key : ∀ n : Nat,
      (if n % 2 = 0 then [n / 2, n / 2] else [n / 2, n / 2 + 1]) = [n / 2, (n + 1) / 2] := by
    intro n
    rcases em (n % 2 = 0) with h | h <;> simp [h] <;> omega
  refine ⟨?_, by simp [maxpool_get_padding_1d], by decide⟩
  rcases em (input_size % stride = 0) with h | h <;>
    simp [maxpool_get_padding_1d, spec_pool_pad, h, key, Nat.max_zero]

/-- Witness for C5 at input 5, pool 2, stride 2. -/
theorem claim_C5_maxpool_padding_witness :
    maxpool_get_padding_1d 5 2 2 true = spec_pool_pad 5 2 2 :=
  (claim_C5_maxpool_padding 5 2 2 (by decide)).1

/-- `ceil(a / b)`, the number of iterations of Python `range(0, a, b)`. -/
def ceilDiv (a b : Nat) : Nat := (a + b - 1) / b

theorem ceilDiv_aux (b q r : Nat) (hb : 0 < b) (hr : r < b) :
    ceilDiv (b * q + r) b = q + (if r = 0 then 0 else 1) := by
  rcases em (r = 0) with h | h
  · subst h
    show (b * q + 0 + b - 1) / b = q + _
    have h1 : b * q + 0 + b - 1 = b * q + (b - 1) := by omega
    rw [h1, Nat.mul_add_div hb, Nat.div_eq_of_lt (by omega)]
    simp
  · show (b * q + r + b - 1) / b = q + _
    have h1 : b * q + r + b - 1 = b * q + (b * 1 + (r - 1)) := by omega
    rw [h1, Nat.mul_add_div hb, Nat.mul_add_div hb, Nat.div_eq_of_lt (by omega),
      if_neg h]

theorem ceilDiv_eq (a b : Nat) (hb : 0 < b) :
    ceilDiv a b = a / b + (if a % b = 0 then 0 else 1) := by
  have h := ceilDiv_aux b (a / b) (a % b) hb (Nat.mod_lt a hb)
  rw [Nat.div_add_mod a b] at h
  exact h

theorem ceilDiv_pos {a b : Nat} (hb : 0 < b) (ha : 0 < a) : 0 < ceilDiv a b :=
  (Nat.one_le_div_iff hb).mpr (by omega)

theorem ceilDiv_of_dvd {a b : Nat} (hb : 0 < b) (h : a % b = 0) :
    ceilDiv a b = a / b := by
  rw [ceilDiv_eq a b hb, h]; simp

/-- With `0 < oH ≤ nI` impossible to phrase directly; the counting fact
used by the reshape guard: for positive `nI`, `nJ` dominating `oH`, `oW`,
the products agree exactly when the factors do. -/
theorem prod_eq_iff {nI nJ oH oW : Nat} (hI : 0 < nI) (hJ : 0 < nJ)
    (h1 : oH ≤ nI) (h2 : oW ≤ nJ) :
    nI * nJ = oH * oW ↔ (nI = oH ∧ nJ = oW) := by
  constructor
  · intro h
    have hIe : nI = oH := by
      by_contra hne
      have hlt : oH + 1 ≤ nI := by omega
      have hstep : oH * oW < nI * nJ := by
        calc oH * oW ≤ oH * nJ := Nat.mul_le_mul_left _ h2
          _ < oH * nJ + nJ := by omega
          _ = (oH + 1) * nJ := by rw [Nat.succ_mul]
          _ ≤ nI * nJ := Nat.mul_le_mul_right _ hlt
      omega
    subst hIe
    exact ⟨rfl, Nat.eq_of_mul_eq_mul_left hI h⟩
  · rintro ⟨rfl, rfl⟩; rfl

/-- The flat list of `(i, j)` loop indices, outer `i` first: the
iteration order of the two nested window loops. -/
def pairList (m n : Nat) : List (Nat × Nat) :=
  (List.range m).flatMap fun i => (List.range n).map fun j => (i, j)

theorem mem_pairList {m n : Nat} {w : Nat × Nat} :
    w ∈ pairList m n ↔ w.1 < m ∧ w.2 < n := by
  constructor
  · intro h
    simp only [pairList, List.mem_flatMap, List.mem_map, List.mem_range] at h
    obtain ⟨i, hi, j, hj, hw⟩ := h
    subst hw
    exact ⟨hi, hj⟩
  · intro ⟨h1, h2⟩
    simp only [pairList, List.mem_flatMap, List.mem_map, List.mem_range]
    exact ⟨w.1, h1, w.2, h2, rfl⟩

/-- `np.pad(x, ((0,0),(p0,p1),(q0,q1),(0,0)), mode="constant")`. -/
def pad4 (x : Tensor) (p0 p1 q0 q1 : Nat) : Tensor :=
  ⟨[dim x 0, dim x 1 + p0 + p1, dim x 2 + q0 + q1, dim x 3], fun idx =>
    match idx with
    | [n, y, xx, c] =>
      if p0 ≤ y ∧ y < p0 + dim x 1 ∧ q0 ≤ xx ∧ xx < q0 + dim x 2 then
        at4 x n (y - p0) (xx - q0) c
      else 0
    | _ => 0⟩

/-- The flattened window `padded[n, col:col+poolH, row:row+poolW, c]` in
row-major order; numpy slices clamp at the buffer edge, hence the `min`. -/
def poolWindow (padded : Tensor) (poolH poolW padH padW col row n c : Nat) : List ℚ :=
  (List.range (min poolH (padH - col))).flatMap fun p =>
    (List.range (min poolW (padW - row))).map fun q =>
      at4 padded n (col + p) (row + q) c

/-- `np.max` of a list (0 on the empty list, which the guarded forward
pass never produces). -/
def maxList : List ℚ → ℚ
  | [] => 0
  | x :: xs => xs.foldl max x

/-- Helper for `argmaxIdx`: scan with current best value and index. -/
def argmaxGo : List ℚ → ℚ → Nat → Nat → Nat
  | [], _, best, _ => best
  | x :: xs, bv, best, i =>
    if bv < x then argmaxGo xs x i (i + 1) else argmaxGo xs bv best (i + 1)

/-- `np.argmax`: index of the first occurrence of the maximum. -/
def argmaxIdx : List ℚ → Nat
  | [] => 0
  | x :: xs => argmaxGo xs x 0 1

/-- `MaxPool2D` constructor arguments: pool size, stride and the padding
mode (`same = true` for `"SAME"`, `false` for `"VALID"`). -/
structure PoolCfg where
  poolH : Nat
  poolW : Nat
  strideH : Nat
  strideW : Nat
  same : Bool

/-- `self.cache` as populated by `MaxPool2D.forward`. -/
structure PoolCache where
  inN : Nat
  inH : Nat
  inW : Nat
  inC : Nat
  sH : Nat
  sW : Nat
  padH : Nat
  padW : Nat
  poolH : Nat
  poolW : Nat
  outH : Nat
  outW : Nat
  maxPos : Nat → Nat → Nat → Nat → Nat

/-- The `(top, bottom, left, right)` padding `MaxPool2D.forward` computes
via `_get_padding`. -/
def maxpool_pads (cfg : PoolCfg) (x : Tensor) : Nat × Nat × Nat × Nat :=
  let ph := maxpool_get_padding_1d (dim x 1) cfg.poolH cfg.strideH cfg.same
  let pw := maxpool_get_padding_1d (dim x 2) cfg.poolW cfg.strideW cfg.same
  (ph.getD 0 0, ph.getD 1 0, pw.getD 0 0, pw.getD 1 0)

/-- Height of the zero-padded buffer inside `MaxPool2D.forward`. -/
def maxpool_padded_h (cfg : PoolCfg) (x : Tensor) : Nat :=
  dim x 1 + (maxpool_pads cfg x).1 + (maxpool_pads cfg x).2.1

/-- Width of the zero-padded buffer inside `MaxPool2D.forward`. -/
def maxpool_padded_w (cfg : PoolCfg) (x : Tensor) : Nat :=
  dim x 2 + (maxpool_pads cfg x).2.2.1 + (maxpool_pads cfg x).2.2.2

/-- `MaxPool2D.forward`.  The nested loops take `ceil(pad/stride)` steps
per axis while the output is reshaped to `pad/stride` (floor) positions
per axis; `none` models the numpy errors: zero stride (`range` step /
`%` by zero), zero pool size (`np.max` over an empty slice), an empty
patch list (`transpose` on a 1-d array), and the reshape failing when
the patch count does not match `out_h * out_w`.  Under the reshape guard
(with nonempty batch and channels) patch `m` corresponds to window
`(m / out_w, m % out_w)`, so the output at `(n, i, j, c)` is the max of
window `(i, j)` and `max_pos` records its flat argmax. -/
def maxpool_forward (cfg : PoolCfg) (x : Tensor) : Option (PoolCache × Tensor) :=
  if cfg.strideH = 0 ∨ cfg.strideW = 0 then none
  else if cfg.poolH = 0 ∨ cfg.poolW = 0 then none
  else
    let pads := maxpool_pads cfg x
    let padded := pad4 x pads.1 pads.2.1 pads.2.2.1 pads.2.2.2
    let padH := maxpool_padded_h cfg x
    let padW := maxpool_padded_w cfg x
    let nI := ceilDiv padH cfg.strideH
    let nJ := ceilDiv padW cfg.strideW
    let outH := padH / cfg.strideH
    let outW := padW / cfg.strideW
    if nI = 0 ∨ nJ = 0 then none
    else if dim x 0 * (nI * nJ) * dim x 3 ≠ dim x 0 * (outH * outW) * dim x 3 then none
    else
      some
        ({ inN := dim x 0, inH := dim x 1, inW := dim x 2, inC := dim x 3,
           sH := cfg.strideH, sW := cfg.strideW, padH := padH, padW := padW,
           poolH := cfg.poolH, poolW := cfg.poolW, outH := outH, outW := outW,
           maxPos := fun n i j c =>
             argmaxIdx (poolWindow padded cfg.poolH cfg.poolW padH padW
               (i * cfg.strideH) (j * cfg.strideW) n c) },
         ⟨[dim x 0, outH, outW, dim x 3], fun idx =>
           match idx with
           | [n, i, j, c] =>
             maxList (poolWindow padded cfg.poolH cfg.poolW padH padW
               (i * cfg.strideH) (j * cfg.strideW) n c)
           | _ => 0⟩)

/-- A gradient buffer shaped like the padded input, as an index function. -/
abbrev Buf := Nat → Nat → Nat → Nat → ℚ

/-- Window `w` of `MaxPool2D.backward` covers padded position `(y, x)`. -/
abbrev pool_covers (c : PoolCache) (w : Nat × Nat) (y x : Nat) : Prop :=
  w.1 * c.sH ≤ y ∧ y < w.1 * c.sH + c.poolH ∧
    w.2 * c.sW ≤ x ∧ x < w.2 * c.sW + c.poolW

/-- Window `w` of `MaxPool2D.backward` executes without a numpy error:
`grad[:, i, j, :]` and `max_pos[:, i, j, :]` are in range, and the
assignment target `d_in[:, col:col+pool_h, row:row+pool_w, :]` is not
truncated at the buffer edge (a truncated slice cannot receive the full
`(pool_h, pool_w)` block: broadcast `ValueError`). -/
abbrev pool_ok (c : PoolCache) (grad : Tensor) (w : Nat × Nat) : Prop :=
  w.1 < c.outH ∧ w.2 < c.outW ∧ w.1 < dim grad 1 ∧ w.2 < dim grad 2 ∧
    w.1 * c.sH + c.poolH ≤ c.padH ∧ w.2 * c.sW + c.poolW ≤ c.padW

/-- Entry `(p, q)` of the one-hot `region` block for window `(i, j)`:
`np.repeat(grad) * np.eye(pool_h*pool_w)[max_pos]` reshaped, i.e. the
incoming gradient where the flat position equals the recorded argmax and
zero elsewhere. -/
def pool_region (c : PoolCache) (grad : Tensor) (i j n p q ch : Nat) : ℚ :=
  if c.maxPos n i j ch = p * c.poolW + q then at4 grad n i j ch else 0

/-- The slice assignment
`d_in[:, col:col+pool_h, row:row+pool_w, :] = region`: plain overwrite of
the window rectangle. -/
def pool_write (c : PoolCache) (grad : Tensor) (buf : Buf) (w : Nat × Nat) : Buf :=
  fun n y x ch =>
    if pool_covers c w y x then
      pool_region c grad w.1 w.2 n (y - w.1 * c.sH) (x - w.2 * c.sW) ch
    else buf n y x ch

/-- One iteration of the `MaxPool2D.backward` window loop, threading the
error state. -/
def pool_step (c : PoolCache) (grad : Tensor) (acc : Option Buf) (w : Nat × Nat) :
    Option Buf :=
  acc.bind fun buf => if pool_ok c grad w then some (pool_write c grad buf w) else none

/-- `MaxPool2D.backward`.  Note the returned tensor keeps the padded
spatial extent `(pad_h, pad_w)` — the source allocates
`d_in = np.zeros((in_n, pad_h, pad_w, in_c))` and never crops it.
A cache produced by `maxpool_forward` always records argmax values below
`pool_h * pool_w`, so `np.eye` indexing is not a separate error case. -/
def maxpool_backward (c : PoolCache) (grad : Tensor) : Option Tensor :=
  if c.sH = 0 ∨ c.sW = 0 then none
  else
    ((pairList (ceilDiv c.padH c.sH) (ceilDiv c.padW c.sW)).foldl (pool_step c grad)
        (some fun _ _ _ _ => 0)).map fun buf =>
      ⟨[c.inN, c.padH, c.padW, c.inC], fun idx =>
        match idx with
        | [n, y, x, ch] => buf n y x ch
        | _ => 0⟩

/-- The tensor inside a successful `maxpool_backward` run. -/
def maxpool_backward_res (c : PoolCache) (grad : Tensor) : Tensor :=
  (maxpool_backward c grad).getD (tZeros [])

theorem pool_fold_from_none (c : PoolCache) (grad : Tensor) (L : List (Nat × Nat)) :
    L.foldl (pool_step c grad) none = none := by
  induction L with
  | nil => rfl
  | cons a L ih => exact ih

theorem pool_fold_none_of_fail (c : PoolCache) (grad : Tensor) (w : Nat × Nat)
    (hfail : ¬ pool_ok c grad w) :
    ∀ L : List (Nat × Nat), w ∈ L → ∀ acc : Option Buf,
      L.foldl (pool_step c grad) acc = none := by
  intro L
  induction L with
  | nil => intro hw; cases hw
  | cons a L ih =>
    intro hw acc
    rcases List.mem_cons.mp hw with heq | hmem
    · subst heq
      rw [List.foldl_cons]
      have hstep : pool_step c grad acc w = none := by
        cases acc with
        | none => rfl
        | some buf => simp [pool_step, hfail]
      rw [hstep]
      exact pool_fold_from_none c grad L
    · rw [List.foldl_cons]
      exact ih hmem _

theorem pool_fold_some_of_ok (c : PoolCache) (grad : Tensor) :
    ∀ L : List (Nat × Nat), (∀ w ∈ L, pool_ok c grad w) → ∀ init : Buf,
      L.foldl (pool_step c grad) (some init)
        = some (L.foldl (pool_write c grad) init) := by
  intro L
  induction L with
  | nil => intro _ init; rfl
  | cons a L ih =>
    intro h init
    rw [List.foldl_cons, List.foldl_cons]
    have hstep : pool_step c grad (some init) a = some (pool_write c grad init a) := by
      simp [pool_step, h a (List.mem_cons_self a L)]
    rw [hstep]
    exact ih (fun w hw => h w (List.mem_cons_of_mem a hw)) _

theorem pool_write_fold_of_not_covered (c : PoolCache) (grad : Tensor) (n y x ch : Nat) :
    ∀ L : List (Nat × Nat), (∀ w ∈ L, ¬ pool_covers c w y x) → ∀ init : Buf,
      (L.foldl (pool_write c grad) init) n y x ch = init n y x ch := by
  intro L
  induction L with
  | nil => intro _ init; rfl
  | cons a L ih =>
    intro h init
    rw [List.foldl_cons, ih (fun w hw => h w (List.mem_cons_of_mem a hw)) _]
    simp [pool_write, h a (List.mem_cons_self a L)]

theorem pool_write_fold_of_covered (c : PoolCache) (grad : Tensor) (n y x ch : Nat)
    (w : Nat × Nat) (huniq : ∀ w2, pool_covers c w2 y x → w2 = w)
    (hc : pool_covers c w y x) :
    ∀ L : List (Nat × Nat), w ∈ L → ∀ init : Buf,
      (L.foldl (pool_write c grad) init) n y x ch
        = pool_region c grad w.1 w.2 n (y - w.1 * c.sH) (x - w.2 * c.sW) ch := by
  intro L
  induction L with
  | nil => intro hw; cases hw
  | cons a L ih =>
    intro hw init
    rw [List.foldl_cons]
    rcases em (w ∈ L) with hmem | hnmem
    · exact ih hmem _
    · have haw : a = w := by
        rcases List.mem_cons.mp hw with heq | hmem2
        · exact heq.symm
        · exact absurd hmem2 hnmem
      subst haw
      rw [pool_write_fold_of_not_covered c grad n y x ch L
        (fun w2 hw2 hc2 => hnmem ((huniq w2 hc2) ▸ hw2)) _]
      simp [pool_write, hc]

theorem pool_covers_elim (c : PoolCache) (hH : c.poolH ≤ c.sH) (hW : c.poolW ≤ c.sW)
    (w : Nat × Nat) (y x : Nat) (h : pool_covers c w y x) :
    y / c.sH = w.1 ∧ x / c.sW = w.2 ∧ y % c.sH < c.poolH ∧ x % c.sW < c.poolW := by
  obtain ⟨h1, h2, h3, h4⟩ := h
  have hy : y / c.sH = w.1 := by
    apply Nat.div_eq_of_lt_le h1
    rw [Nat.succ_mul]
    omega
  have hx : x / c.sW = w.2 := by
    apply Nat.div_eq_of_lt_le h3
    rw [Nat.succ_mul]
    omega
  have hdy := Nat.div_add_mod y c.sH
  have hdx := Nat.div_add_mod x c.sW
  rw [hy, Nat.mul_comm] at hdy
  rw [hx, Nat.mul_comm] at hdx
  exact ⟨hy, hx, by omega, by omega⟩

theorem pool_covers_intro (c : PoolCache) (y x : Nat)
    (hry : y % c.sH < c.poolH) (hrx : x % c.sW < c.poolW) :
    pool_covers c (y / c.sH, x / c.sW) y x := by
  have hdy := Nat.div_add_mod y c.sH
  have hdx := Nat.div_add_mod x c.sW
  rw [Nat.mul_comm] at hdy hdx
  refine ⟨?_, ?_, ?_, ?_⟩
  · show y / c.sH * c.sH ≤ y
    omega
  · show y < y / c.sH * c.sH + c.poolH
    omega
  · show x / c.sW * c.sW ≤ x
    omega
  · show x < x / c.sW * c.sW + c.poolW
    omega

/-- Claim C10: with positive batch, spatial, channel, pool and stride
sizes, `MaxPool2D.forward` succeeds exactly when the padded height is
divisible by the height stride and the padded width by the width stride;
otherwise the window loops produce `ceil(pad/stride)` patches per axis
while the output reshape expects `⌊pad/stride⌋` positions per axis, and
forward raises instead of returning a tensor. -/
theorem claim_C10_maxpool_forward_divisibility (cfg : PoolCfg) (x : Tensor)
    (h0 : 0 < dim x 0) (h1 : 0 < dim x 1) (h2 : 0 < dim x 2) (h3 : 0 < dim x 3)
    (hp1 : 0 < cfg.poolH) (hp2 : 0 < cfg.poolW)
    (hs1 : 0 < cfg.strideH) (hs2 : 0 < cfg.strideW) :
    (maxpool_forward cfg x).isSome = true ↔
      (maxpool_padded_h cfg x % cfg.strideH = 0 ∧
        maxpool_padded_w cfg x % cfg.strideW = 0) := by
  simp only [maxpool_forward]
  set PH := maxpool_padded_h cfg x with hPHd
  set PW := maxpool_padded_w cfg x with hPWd
  have hPH : 0 < PH := by
    rw [hPHd]
    simp only [maxpool_padded_h]
    omega
  have hPW : 0 < PW := by
    rw [hPWd]
    simp only [maxpool_padded_w]
    omega
  have hI : 0 < ceilDiv PH cfg.strideH := ceilDiv_pos hs1 hPH
  have hJ : 0 < ceilDiv PW cfg.strideW := ceilDiv_pos hs2 hPW
  have hIe := ceilDiv_eq PH cfg.strideH hs1
  have hJe := ceilDiv_eq PW cfg.strideW hs2
  have hdom1 : PH / cfg.strideH ≤ ceilDiv PH cfg.strideH := by
    rw [hIe]; split <;> omega
  have hdom2 : PW / cfg.strideW ≤ ceilDiv PW cfg.strideW := by
    rw [hJe]; split <;> omega
  rw [if_neg (show ¬(cfg.strideH = 0 ∨ cfg.strideW = 0) by omega),
    if_neg (show ¬(cfg.poolH = 0 ∨ cfg.poolW = 0) by omega),
    if_neg (show ¬(ceilDiv PH cfg.strideH = 0 ∨ ceilDiv PW cfg.strideW = 0) by omega)]
  rcases em (PH % cfg.strideH = 0) with hH | hH <;>
    rcases em (PW % cfg.strideW = 0) with hW | hW
  · rw [hH, if_pos rfl, Nat.add_zero] at hIe
    rw [hW, if_pos rfl, Nat.add_zero] at hJe
    split
    · next hcond => exact absurd (by rw [hIe, hJe]) hcond
    · next hcond => simp [hH, hW]
  · rw [hH, if_pos rfl, Nat.add_zero] at hIe
    rw [if_neg hW] at hJe
    split
    · next hcond => simp [hW]
    · next hcond =>
      exfalso
      have heq := not_not.mp hcond
      have heq2 := Nat.eq_of_mul_eq_mul_left h0 (Nat.eq_of_mul_eq_mul_right h3 heq)
      obtain ⟨he1, he2⟩ := (prod_eq_iff hI hJ hdom1 hdom2).mp heq2
      omega
  · rw [if_neg hH] at hIe
    split
    · next hcond => simp [hH]
    · next hcond =>
      exfalso
      have heq := not_not.mp hcond
      have heq2 := Nat.eq_of_mul_eq_mul_left h0 (Nat.eq_of_mul_eq_mul_right h3 heq)
      obtain ⟨he1, he2⟩ := (prod_eq_iff hI hJ hdom1 hdom2).mp heq2
      omega
  · rw [if_neg hH] at hIe
    split
    · next hcond => simp [hH]
    · next hcond =>
      exfalso
      have heq := not_not.mp hcond
      have heq2 := Nat.eq_of_mul_eq_mul_left h0 (Nat.eq_of_mul_eq_mul_right h3 heq)
      obtain ⟨he1, he2⟩ := (prod_eq_iff hI hJ hdom1 hdom2).mp heq2
      omega

/-- Witness for C10: pool (2,2), stride (2,2), SAME padding on a
(1,5,5,1) input: the padded sizes are 6 and 6, both divisible by 2, and
forward indeed succeeds. -/
theorem claim_C10_maxpool_forward_divisibility_witness :
    (maxpool_forward ⟨2, 2, 2, 2, true⟩ (tZeros [1, 5, 5, 1])).isSome = true :=
  (claim_C10_maxpool_forward_divisibility ⟨2, 2, 2, 2, true⟩ (tZeros [1, 5, 5, 1])
    (by decide) (by decide) (by decide) (by decide) (by decide) (by decide)
    (by decide) (by decide)).mpr ⟨by decide, by decide⟩

/-- Claim C1 fails on the code: for MaxPool2D with SAME padding on a
(1,5,5,1) input (pool (2,2), stride (2,2)), forward succeeds with output
shape (1,3,3,1), but backward of a gradient of that shape returns a
tensor with the padded spatial extent (1,6,6,1) instead of the input
shape (1,5,5,1): `MaxPool2D.backward` allocates
`d_in = np.zeros((in_n, pad_h, pad_w, in_c))` and never crops it back by
the padding amounts (contrast `Conv2D.backward`, which does crop). -/
theorem claim_C1_maxpool_backward_shape :
    ((maxpool_forward ⟨2, 2, 2, 2, true⟩ (tZeros [1, 5, 5, 1])).map fun r => r.2.shape)
        = some [1, 3, 3, 1] ∧
    ((maxpool_forward ⟨2, 2, 2, 2, true⟩ (tZeros [1, 5, 5, 1])).bind fun r =>
        (maxpool_backward r.1 (tZeros [1, 3, 3, 1])).map Tensor.shape)
        = some [1, 6, 6, 1] ∧
    ([1, 6, 6, 1] : List Nat) ≠ [1, 5, 5, 1] :=
  ⟨by decide, by decide, by decide⟩

theorem pool_covers_eq (c : PoolCache) (hH : c.poolH ≤ c.sH) (hW : c.poolW ≤ c.sW)
    (w : Nat × Nat) (y x : Nat) (h : pool_covers c w y x) :
    w = (y / c.sH, x / c.sW) := by
  obtain ⟨e1, e2, _, _⟩ := pool_covers_elim c hH hW w y x h
  cases w
  simp only [Prod.mk.injEq]
  exact ⟨e1.symm, e2.symm⟩

/-- Claim C2 (amended): each window of `MaxPool2D.backward` writes its
one-hot routed gradient block with plain assignment (overwrite, never
accumulate) semantics.  When stride ≥ pool size on both axes (windows
disjoint and in bounds) backward succeeds and every padded position
inside a window holds exactly the one-hot routed value of its unique
window — the gradient entry where the flat in-window position equals the
recorded argmax, zero elsewhere.  But whenever windows overlap along
either axis (stride < pool size on the height or on the width axis),
the final window along that axis extends past the padded buffer, numpy
rejects the slice assignment, and backward raises instead of returning a
tensor with overwritten overlaps. -/
theorem claim_C2_maxpool_backward_routing (c : PoolCache) (grad : Tensor)
    (h0H : 0 < c.sH) (h0W : 0 < c.sW)
    (hdH : c.padH % c.sH = 0) (hdW : c.padW % c.sW = 0)
    (hoH : c.outH = c.padH / c.sH) (hoW : c.outW = c.padW / c.sW)
    (hgH : dim grad 1 = c.padH / c.sH) (hgW : dim grad 2 = c.padW / c.sW) :
    (c.poolH ≤ c.sH → c.poolW ≤ c.sW →
      (maxpool_backward c grad).isSome = true ∧
      (maxpool_backward_res c grad).shape = [c.inN, c.padH, c.padW, c.inC] ∧
      ∀ n y x ch, y < c.padH → x < c.padW →
        at4 (maxpool_backward_res c grad) n y x ch =
          (if y % c.sH < c.poolH ∧ x % c.sW < c.poolW then
            pool_region c grad (y / c.sH) (x / c.sW) n (y % c.sH) (x % c.sW) ch
          else 0)) ∧
    (c.sH < c.poolH ∨ c.sW < c.poolW → 0 < c.padH → 0 < c.padW →
      maxpool_backward c grad = none) := by
  have hNI : ceilDiv c.padH c.sH = c.padH / c.sH := ceilDiv_of_dvd h0H hdH
  have hNJ : ceilDiv c.padW c.sW = c.padW / c.sW := ceilDiv_of_dvd h0W hdW
  constructor
  · intro hH hW
    have hok : ∀ w ∈ pairList (ceilDiv c.padH c.sH) (ceilDiv c.padW c.sW),
        pool_ok c grad w := by
      intro w hw
      obtain ⟨hw1, hw2⟩ := mem_pairList.mp hw
      rw [hNI] at hw1
      rw [hNJ] at hw2
      have hb1 : (w.1 + 1) * c.sH ≤ c.padH := by
        have := Nat.mul_le_mul_right c.sH (show w.1 + 1 ≤ c.padH / c.sH by omega)
        rwa [Nat.div_mul_cancel (Nat.dvd_of_mod_eq_zero hdH)] at this
      have hb2 : (w.2 + 1) * c.sW ≤ c.padW := by
        have := Nat.mul_le_mul_right c.sW (show w.2 + 1 ≤ c.padW / c.sW by omega)
        rwa [Nat.div_mul_cancel (Nat.dvd_of_mod_eq_zero hdW)] at this
      rw [Nat.succ_mul] at hb1 hb2
      exact ⟨by omega, by omega, by omega, by omega, by omega, by omega⟩
    have hfold := pool_fold_some_of_ok c grad
      (pairList (ceilDiv c.padH c.sH) (ceilDiv c.padW c.sW)) hok (fun _ _ _ _ => 0)
    have hres : maxpool_backward c grad
        = some ⟨[c.inN, c.padH, c.padW, c.inC], fun idx =>
            match idx with
            | [n, y, x, ch] =>
              ((pairList (ceilDiv c.padH c.sH) (ceilDiv c.padW c.sW)).foldl
                (pool_write c grad) (fun _ _ _ _ => 0)) n y x ch
            | _ => 0⟩ := by
      simp only [maxpool_backward]
      rw [if_neg (show ¬(c.sH = 0 ∨ c.sW = 0) by omega), hfold]
      rfl
    have hres2 : maxpool_backward_res c grad
        = ⟨[c.inN, c.padH, c.padW, c.inC], fun idx =>
            match idx with
            | [n, y, x, ch] =>
              ((pairList (ceilDiv c.padH c.sH) (ceilDiv c.padW c.sW)).foldl
                (pool_write c grad) (fun _ _ _ _ => 0)) n y x ch
            | _ => 0⟩ := by
      simp only [maxpool_backward_res]
      rw [hres]
      rfl
    refine ⟨by rw [hres]; rfl, by rw [hres2], ?_⟩
    intro n y x ch hy hx
    rw [hres2]
    show ((pairList (ceilDiv c.padH c.sH) (ceilDiv c.padW c.sW)).foldl
      (pool_write c grad) (fun _ _ _ _ => 0)) n y x ch = _
    have hmy : y - y / c.sH * c.sH = y % c.sH := by
      have hdy := Nat.div_add_mod y c.sH
      rw [Nat.mul_comm] at hdy
      omega
    have hmx : x - x / c.sW * c.sW = x % c.sW := by
      have hdx := Nat.div_add_mod x c.sW
      rw [Nat.mul_comm] at hdx
      omega
    rcases em (y % c.sH < c.poolH ∧ x % c.sW < c.poolW) with hin | hin
    · obtain ⟨hry, hrx⟩ := hin
      have hcov := pool_covers_intro c y x hry hrx
      have hmem : (y / c.sH, x / c.sW)
          ∈ pairList (ceilDiv c.padH c.sH) (ceilDiv c.padW c.sW) := by
        apply mem_pairList.mpr
        constructor
        · show y / c.sH < ceilDiv c.padH c.sH
          rw [hNI]
          exact Nat.div_lt_div_of_lt_of_dvd (Nat.dvd_of_mod_eq_zero hdH) hy
        · show x / c.sW < ceilDiv c.padW c.sW
          rw [hNJ]
          exact Nat.div_lt_div_of_lt_of_dvd (Nat.dvd_of_mod_eq_zero hdW) hx
      rw [pool_write_fold_of_covered c grad n y x ch (y / c.sH, x / c.sW)
        (fun w2 hc2 => pool_covers_eq c hH hW w2 y x hc2) hcov _ hmem _]
      show pool_region c grad (y / c.sH) (x / c.sW) n
        (y - y / c.sH * c.sH) (x - x / c.sW * c.sW) ch = _
      rw [hmy, hmx, if_pos ⟨hry, hrx⟩]
    · rw [pool_write_fold_of_not_covered c grad n y x ch _ ?_ _, if_neg hin]
      intro w hw hc2
      obtain ⟨_, _, h3, h4⟩ := pool_covers_elim c hH hW w y x hc2
      exact hin ⟨h3, h4⟩
  · intro hlt hph hpw
    have h1 := ceilDiv_pos h0H hph
    have h2 := ceilDiv_pos h0W hpw
    rcases hlt with hltH | hltW
    · have hfail : ¬ pool_ok c grad (ceilDiv c.padH c.sH - 1, 0) := by
        intro hok
        obtain ⟨_, _, _, _, hbH, _⟩ := hok
        obtain ⟨k, hk⟩ := Nat.dvd_of_mod_eq_zero hdH
        have hq : c.padH / c.sH = k := by
          rw [hk]
          exact Nat.mul_div_cancel_left k h0H
        rw [Nat.mul_comm c.sH k] at hk
        have hk1 : 0 < k := by
          rcases Nat.eq_zero_or_pos k with h | h
          · rw [h, Nat.zero_mul] at hk
            omega
          · exact h
        have hsle : c.sH ≤ k * c.sH := Nat.le_mul_of_pos_left c.sH hk1
        simp only [hNI, hq] at hbH
        rw [Nat.sub_mul] at hbH
        omega
      have hmem : (ceilDiv c.padH c.sH - 1, 0)
          ∈ pairList (ceilDiv c.padH c.sH) (ceilDiv c.padW c.sW) := by
        apply mem_pairList.mpr
        exact ⟨by omega, by omega⟩
      simp only [maxpool_backward]
      rw [if_neg (show ¬(c.sH = 0 ∨ c.sW = 0) by omega),
        pool_fold_none_of_fail c grad _ hfail _ hmem _]
      rfl
    · have hfail : ¬ pool_ok c grad (0, ceilDiv c.padW c.sW - 1) := by
        intro hok
        obtain ⟨_, _, _, _, _, hbW⟩ := hok
        obtain ⟨k, hk⟩ := Nat.dvd_of_mod_eq_zero hdW
        have hq : c.padW / c.sW = k := by
          rw [hk]
          exact Nat.mul_div_cancel_left k h0W
        rw [Nat.mul_comm c.sW k] at hk
        have hk1 : 0 < k := by
          rcases Nat.eq_zero_or_pos k with h | h
          · rw [h, Nat.zero_mul] at hk
            omega
          · exact h
        have hsle : c.sW ≤ k * c.sW := Nat.le_mul_of_pos_left c.sW hk1
        simp only [hNJ, hq] at hbW
        rw [Nat.sub_mul] at hbW
        omega
      have hmem : (0, ceilDiv c.padW c.sW - 1)
          ∈ pairList (ceilDiv c.padH c.sH) (ceilDiv c.padW c.sW) := by
        apply mem_pairList.mpr
        exact ⟨by omega, by omega⟩
      simp only [maxpool_backward]
      rw [if_neg (show ¬(c.sH = 0 ∨ c.sW = 0) by omega),
        pool_fold_none_of_fail c grad _ hfail _ hmem _]
      rfl

/-- Concrete cache for the C2 witness: the cache `MaxPool2D.forward`
produces for the spec scenario — input `[[1,3],[2,4]]` as a (1,2,2,1)
map, pool (2,2), stride (2,2), VALID: no padding, one window whose
argmax (value 4) sits at flat position 3. -/
def poolC0 : PoolCache :=
  { inN := 1, inH := 2, inW := 2, inC := 1, sH := 2, sW := 2, padH := 2, padW := 2,
    poolH := 2, poolW := 2, outH := 1, outW := 1, maxPos := fun _ _ _ _ => 3 }

/-- Gradient `[[1]]` fed into the C2 witness. -/
def poolG0 : Tensor := ⟨[1, 1, 1, 1], fun _ => 1⟩

/-- Witness for C2: in the spec scenario the routed backward gradient
puts 1 at the position that held the max (flat position 3, i.e.
`(1, 1)`) and 0 at the top-left corner. -/
theorem claim_C2_maxpool_backward_routing_witness :
    (maxpool_backward poolC0 poolG0).isSome = true ∧
    at4 (maxpool_backward_res poolC0 poolG0) 0 1 1 0 = 1 ∧
    at4 (maxpool_backward_res poolC0 poolG0) 0 0 0 0 = 0 := by
  have h := (claim_C2_maxpool_backward_routing poolC0 poolG0 (by decide) (by decide)
    (by decide) (by decide) (by decide) (by decide) (by decide) (by decide)).1
    (by decide) (by decide)
  exact ⟨h.1, (h.2.2 0 1 1 0 (by decide) (by decide)).trans (by decide),
    (h.2.2 0 0 0 0 (by decide) (by decide)).trans (by decide)⟩

/-- Counterexample for C2 as stated: with overlapping windows
(stride (1,1) < pool (2,2)) on a (1,2,2,1) input with VALID padding,
forward succeeds, but backward returns no tensor at all — the edge
window's slice assignment fails — so no "later window overwrites an
earlier one" result is ever produced. -/
theorem claim_C2_maxpool_backward_routing_counterexample :
    ((maxpool_forward ⟨2, 2, 1, 1, false⟩ (tZeros [1, 2, 2, 1])).map fun r => r.2.shape)
        = some [1, 2, 2, 1] ∧
    ((maxpool_forward ⟨2, 2, 1, 1, false⟩ (tZeros [1, 2, 2, 1])).bind fun r =>
        maxpool_backward r.1 (tZeros [1, 2, 2, 1])).isSome = false :=
  ⟨by decide, by decide⟩

/-- The data `Conv2D.forward` leaves for backward: the kernel and stride
configuration, the padded input shape `X_shape = (batch, XH, XW, inC)`,
the im2col patch matrix `col` (shape `(batch*out_h*out_w, kH*kW*inC)`),
the flattened kernel `W` (shape `(kH*kW*inC, outC)`) and the
`(top, bottom, left, right)` padding.  A cache produced by a successful
forward pass always has positive strides (`range` would raise on step
zero). -/
structure ConvCache where
  kH : Nat
  kW : Nat
  inC : Nat
  outC : Nat
  sH : Nat
  sW : Nat
  batch : Nat
  XH : Nat
  XW : Nat
  col : Nat → Nat → ℚ
  W : Nat → Nat → ℚ
  p0 : Nat
  p1 : Nat
  q0 : Nat
  q1 : Nat

/-- `grad.reshape(-1, out_c)`: row `r` of the flattened gradient is the
entry `(r / (d1*d2), r / d2 % d1, r % d2)` of `grad` (row-major). -/
def flat_grad (grad : Tensor) (r o : Nat) : ℚ :=
  at4 grad (r / (dim grad 1 * dim grad 2)) (r / dim grad 2 % dim grad 1) (r % dim grad 2) o

/-- `d_X = grad @ self.W.T`: entry `p` of the gradient patch at output
position `(n, i, j)`. -/
def conv_dX (c : ConvCache) (grad : Tensor) (n i j p : Nat) : ℚ :=
  ((List.range c.outC).map fun o => at4 grad n i j o * c.W p o).sum

/-- Number of iterations of `range(0, size - k + 1, s)`: the window count
along one axis of the col2im loop. -/
def conv_nwin (size k s : Nat) : Nat :=
  if k ≤ size then (size - k) / s + 1 else 0

/-- Window `(i, j)` of the col2im loop covers padded position `(y, x)`. -/
abbrev conv_covers (c : ConvCache) (w : Nat × Nat) (y x : Nat) : Prop :=
  w.1 * c.sH ≤ y ∧ y < w.1 * c.sH + c.kH ∧ w.2 * c.sW ≤ x ∧ x < w.2 * c.sW + c.kW

/-- The contribution of window `w` at padded position `(y, x)`, channel
`cc`: entry `((y-r)*kW + (x-col))*inC + cc` of the reshaped
`(kH, kW, inC)` patch `d_X[:, i, j, :]`. -/
def conv_patch (c : ConvCache) (grad : Tensor) (w : Nat × Nat) (n y x cc : Nat) : ℚ :=
  conv_dX c grad n w.1 w.2 (((y - w.1 * c.sH) * c.kW + (x - w.2 * c.sW)) * c.inC + cc)

/-- `d_in[:, r:r+k_h, col:col+k_w, :] += patch`: accumulate the patch
into the window rectangle. -/
def conv_write (c : ConvCache) (grad : Tensor) (buf : Buf) (w : Nat × Nat) : Buf :=
  fun n y x cc =>
    if conv_covers c w y x then buf n y x cc + conv_patch c grad w n y x cc
    else buf n y x cc

/-- The results of `Conv2D.backward`: `grads["w"]`, `grads["b"]` and the
returned input gradient. -/
structure ConvGrads where
  w : Tensor
  b : Tensor
  dIn : Tensor

/-- `Conv2D.backward`: `grad_w = col.T @ flat_grad` reshaped to the
kernel shape, `grad_b = flat_grad.sum(axis=0)`, and the input gradient
built by accumulating each output position's patch into a zero buffer of
the padded input shape, then cropping by the padding amounts. -/
def conv2d_backward (c : ConvCache) (grad : Tensor) : ConvGrads :=
  let R := dim grad 0 * dim grad 1 * dim grad 2
  let gw : Tensor := ⟨[c.kH, c.kW, c.inC, c.outC], fun idx =>
    match idx with
    | [a, b, cc, o] =>
      ((List.range R).map fun r =>
        c.col r ((a * c.kW + b) * c.inC + cc) * flat_grad grad r o).sum
    | _ => 0⟩
  let gb : Tensor := ⟨[c.outC], fun idx =>
    match idx with
    | [o] => ((List.range R).map fun r => flat_grad grad r o).sum
    | _ => 0⟩
  let buf := (pairList (conv_nwin c.XH c.kH c.sH) (conv_nwin c.XW c.kW c.sW)).foldl
    (conv_write c grad) (fun _ _ _ _ => 0)
  let dIn : Tensor := ⟨[c.batch, c.XH - c.p1 - c.p0, c.XW - c.q1 - c.q0, c.inC], fun idx =>
    match idx with
    | [n, y, x, cc] => buf n (y + c.p0) (x + c.q0) cc
    | _ => 0⟩
  { w := gw, b := gb, dIn := dIn }

theorem sum_map_flatMap {α β : Type} (l : List α) (F : α → List β) (g : β → ℚ) :
    ((l.flatMap F).map g).sum = (l.map fun a => ((F a).map g).sum).sum := by
  induction l with
  | nil => rfl
  | cons a l ih =>
    rw [List.flatMap_cons, List.map_append, List.sum_append, List.map_cons, List.sum_cons, ih]

theorem sum_pairList (m n : Nat) (g : Nat × Nat → ℚ) :
    ((pairList m n).map g).sum
      = ((List.range m).map fun i => ((List.range n).map fun j => g (i, j)).sum).sum := by
  rw [pairList, sum_map_flatMap]
  simp [List.map_map, Function.comp_def]

theorem sum_range_mul (m n : Nat) (f : Nat → ℚ) :
    ((List.range (m * n)).map f).sum
      = ((List.range m).map fun i =>
          ((List.range n).map fun j => f (i * n + j)).sum).sum := by
  induction m with
  | zero => simp
  | succ m ih =>
    rw [Nat.succ_mul, List.range_add, List.map_append, List.sum_append, ih,
      List.range_succ, List.map_append, List.sum_append]
    simp [List.map_map, Function.comp_def]

theorem flat_index_unflatten (d1 d2 n i j : Nat) (hi : i < d1) (hj : j < d2) :
    ((n * d1 + i) * d2 + j) / (d1 * d2) = n
    ∧ ((n * d1 + i) * d2 + j) / d2 % d1 = i
    ∧ ((n * d1 + i) * d2 + j) % d2 = j := by
  have hd1 : 0 < d1 := by omega
  have hd2 : 0 < d2 := by omega
  refine ⟨?_, ?_, ?_⟩
  · have hsplit : (n * d1 + i) * d2 + j = d1 * d2 * n + (i * d2 + j) := by ring
    have hlt : i * d2 + j < d1 * d2 := by
      have h2 : (i + 1) * d2 ≤ d1 * d2 := Nat.mul_le_mul_right d2 (by omega)
      rw [Nat.succ_mul] at h2
      omega
    rw [hsplit, Nat.mul_add_div (Nat.mul_pos hd1 hd2), Nat.div_eq_of_lt hlt, Nat.add_zero]
  · have hsplit : (n * d1 + i) * d2 + j = d2 * (n * d1 + i) + j := by ring
    rw [hsplit, Nat.mul_add_div hd2, Nat.div_eq_of_lt hj, Nat.add_zero]
    have hsplit2 : n * d1 + i = d1 * n + i := by ring
    rw [hsplit2, Nat.mul_add_mod, Nat.mod_eq_of_lt hi]
  · have hsplit : (n * d1 + i) * d2 + j = d2 * (n * d1 + i) + j := by ring
    rw [hsplit, Nat.mul_add_mod, Nat.mod_eq_of_lt hj]

theorem conv_fold_sum (c : ConvCache) (grad : Tensor) (n y x cc : Nat) :
    ∀ (L : List (Nat × Nat)) (init : Buf),
      (L.foldl (conv_write c grad) init) n y x cc
        = init n y x cc
          + (L.map fun w =>
              if conv_covers c w y x then conv_patch c grad w n y x cc else 0).sum := by
  intro L
  induction L with
  | nil => intro init; simp
  | cons a L ih =>
    intro init
    rw [List.foldl_cons, ih, List.map_cons, List.sum_cons]
    have hstep : conv_write c grad init a n y x cc
        = init n y x cc
          + (if conv_covers c a y x then conv_patch c grad a n y x cc else 0) := by
      simp only [conv_write]
      split <;> simp
    rw [hstep]
    ring

/-- Claim C3: `Conv2D.backward` computes `grad_w` as the cached patch
matrix transposed times the flattened gradient, reshaped to the kernel
shape; `grad_b` as the sum of the flattened gradient over all rows
(i.e. over every `(n, i, j)` output position); and the input gradient by
col2im — each output position's patch is accumulated (summed, never
overwritten) into a zero buffer shaped like the padded input over that
position's receptive field, after which the buffer is cropped by the
padding amounts to the unpadded input shape. -/
theorem claim_C3_conv_backward (c : ConvCache) (grad : Tensor) :
    (conv2d_backward c grad).w.shape = [c.kH, c.kW, c.inC, c.outC] ∧
    (conv2d_backward c grad).b.shape = [c.outC] ∧
    (conv2d_backward c grad).dIn.shape
      = [c.batch, c.XH - c.p1 - c.p0, c.XW - c.q1 - c.q0, c.inC] ∧
    (∀ a b cc o, (conv2d_backward c grad).w.data [a, b, cc, o]
      = ((List.range (dim grad 0)).map fun n =>
          ((List.range (dim grad 1)).map fun i =>
            ((List.range (dim grad 2)).map fun j =>
              c.col ((n * dim grad 1 + i) * dim grad 2 + j) ((a * c.kW + b) * c.inC + cc)
                * at4 grad n i j o).sum).sum).sum) ∧
    (∀ o, (conv2d_backward c grad).b.data [o]
      = ((List.range (dim grad 0)).map fun n =>
          ((List.range (dim grad 1)).map fun i =>
            ((List.range (dim grad 2)).map fun j => at4 grad n i j o).sum).sum).sum) ∧
    (∀ n y x cc, (conv2d_backward c grad).dIn.data [n, y, x, cc]
      = ((List.range (conv_nwin c.XH c.kH c.sH)).map fun i =>
          ((List.range (conv_nwin c.XW c.kW c.sW)).map fun j =>
            if conv_covers c (i, j) (y + c.p0) (x + c.q0) then
              conv_patch c grad (i, j) n (y + c.p0) (x + c.q0) cc
            else 0).sum).sum) := by
  refine ⟨rfl, rfl, rfl, ?_, ?_, ?_⟩
  · intro a b cc o
    show ((List.range (dim grad 0 * dim grad 1 * dim grad 2)).map fun r =>
      c.col r ((a * c.kW + b) * c.inC + cc) * flat_grad grad r o).sum = _
    rw [sum_range_mul (dim grad 0 * dim grad 1) (dim grad 2),
      sum_range_mul (dim grad 0) (dim grad 1)]
    refine congrArg List.sum (List.map_congr_left ?_)
    intro n hn
    refine congrArg List.sum (List.map_congr_left ?_)
    intro i hi
    refine congrArg List.sum (List.map_congr_left ?_)
    intro j hj
    rw [List.mem_range] at hi hj
    obtain ⟨e1, e2, e3⟩ := flat_index_unflatten (dim grad 1) (dim grad 2) n i j hi hj
    simp only [flat_grad, e1, e2, e3]
  · intro o
    show ((List.range (dim grad 0 * dim grad 1 * dim grad 2)).map fun r =>
      flat_grad grad r o).sum = _
    rw [sum_range_mul (dim grad 0 * dim grad 1) (dim grad 2),
      sum_range_mul (dim grad 0) (dim grad 1)]
    refine congrArg List.sum (List.map_congr_left ?_)
    intro n hn
    refine congrArg List.sum (List.map_congr_left ?_)
    intro i hi
    refine congrArg List.sum (List.map_congr_left ?_)
    intro j hj
    rw [List.mem_range] at hi hj
    obtain ⟨e1, e2, e3⟩ := flat_index_unflatten (dim grad 1) (dim grad 2) n i j hi hj
    simp only [flat_grad, e1, e2, e3]
  · intro n y x cc
    show ((pairList (conv_nwin c.XH c.kH c.sH) (conv_nwin c.XW c.kW c.sW)).foldl
      (conv_write c grad) (fun _ _ _ _ => 0)) n (y + c.p0) (x + c.q0) cc = _
    rw [conv_fold_sum, sum_pairList]
    simp

/-- `Dense.backward` for an initialized layer with cached `inputs`:
`grads["w"] = inputs.T @ grad` (shape `[in, out]`),
`grads["b"] = np.sum(grad, axis=0)` — the axis is reduced away, so the
result is rank 1 of shape `[out]`, while the `b` parameter has shape
`[1, out]` — and the returned input gradient is `grad @ w.T`
(shape `[batch, in]`).  The `b` parameter is not read by backward. -/
def dense_backward (w inputs grad : Tensor) : List (String × Tensor) × Tensor :=
  let gw : Tensor := ⟨[dim inputs 1, dim grad 1], fun idx =>
    match idx with
    | [i, o] => ((List.range (dim inputs 0)).map fun n => at2 inputs n i * at2 grad n o).sum
    | _ => 0⟩
  let gb : Tensor := ⟨[dim grad 1], fun idx =>
    match idx with
    | [o] => ((List.range (dim grad 0)).map fun n => at2 grad n o).sum
    | _ => 0⟩
  let dIn : Tensor := ⟨[dim grad 0, dim inputs 1], fun idx =>
    match idx with
    | [n, i] => ((List.range (dim grad 1)).map fun o => at2 grad n o * at2 w i o).sum
    | _ => 0⟩
  ([("w", gw), ("b", gb)], dIn)

/-- `Dropout` layer state: keep probability, the cached scaled mask
`_multiplier` (absent until a training-mode forward runs) and the
`is_training` flag. -/
structure DropoutSt where
  keepProb : ℚ
  multiplier : Option Tensor
  training : Bool

/-- `Dropout.forward`.  The Bernoulli draw
`np.random.binomial(1, keep_prob, size=inputs.shape)` is an external
source of randomness, passed in as the 0/1 tensor `draw` of the input's
shape; the cached multiplier is `draw / keep_prob` and training-mode
output is `inputs * multiplier`.  Inference mode returns the input
unchanged. -/
def dropout_forward (st : DropoutSt) (draw inputs : Tensor) : DropoutSt × Tensor :=
  if st.training then
    let m : Tensor := ⟨inputs.shape, fun i => draw.data i / st.keepProb⟩
    ({ st with multiplier := some m },
     ⟨inputs.shape, fun i => inputs.data i * m.data i⟩)
  else (st, inputs)

/-- `Dropout.backward`: `assert self.is_training is True` fails in
inference mode (`AssertionError`); in training mode the gradient is
multiplied elementwise by the cached mask (`grad * None` is a
`TypeError` if no training forward ever ran). -/
def dropout_backward (st : DropoutSt) (grad : Tensor) : Option Tensor :=
  if st.training then
    st.multiplier.map fun m => ⟨grad.shape, fun i => grad.data i * m.data i⟩
  else none

/-- Row-major flat offset of multi-index `idx` within `shape`. -/
def flattenIdx : List Nat → List Nat → Nat
  | _ :: shape, i :: idx => i * shape.prod + flattenIdx shape idx
  | _, _ => 0

/-- Row-major multi-index of flat offset `r` within `shape`. -/
def unflattenIdx : List Nat → Nat → List Nat
  | [], _ => []
  | _ :: shape, r => (r / shape.prod) :: unflattenIdx shape (r % shape.prod)

/-- `np.reshape` (row-major); fails when the element counts differ. -/
def reshape (t : Tensor) (shape : List Nat) : Option Tensor :=
  if shape.prod = t.shape.prod then
    some ⟨shape, fun idx => t.data (unflattenIdx t.shape (flattenIdx shape idx))⟩
  else none

/-- `Activation.backward`: `derivative_func(self.inputs) * grad`,
parameterised by the variant's elementwise derivative `dfun`. -/
def activation_backward (dfun : ℚ → ℚ) (inputs grad : Tensor) : Tensor :=
  ⟨grad.shape, fun i => dfun (inputs.data i) * grad.data i⟩

/-- A layer in its post-forward state: exactly the data its `backward`
reads.  Dense and Conv2D also carry their parameter tensors. -/
inductive LayerSt where
  | dense (w b inputs : Tensor)
  | conv (w b : Tensor) (cache : ConvCache)
  | maxpool (cache : PoolCache)
  | flattenL (inputShape : List Nat)
  | dropoutL (st : DropoutSt)
  | activationL (dfun : ℚ → ℚ) (inputs : Tensor)

/-- `layer.params`: Dense and Conv2D own `w` and `b` (insertion order:
`w` first); every other layer's parameter dict is empty. -/
def layer_params : LayerSt → List (String × Tensor)
  | .dense w b _ => [("w", w), ("b", b)]
  | .conv w b _ => [("w", w), ("b", b)]
  | _ => []

/-- `layer.backward(grad)`: the populated `grads` dict (in the order the
source assigns the keys: `w` then `b`) and the gradient w.r.t. the layer
input; `none` when the layer raises. -/
def layer_backward : LayerSt → Tensor → Option (List (String × Tensor) × Tensor)
  | .dense w _ inputs, grad => some (dense_backward w inputs grad)
  | .conv _ _ cache, grad =>
    some ([("w", (conv2d_backward cache grad).w), ("b", (conv2d_backward cache grad).b)],
      (conv2d_backward cache grad).dIn)
  | .maxpool cache, grad => (maxpool_backward cache grad).map fun t => ([], t)
  | .flattenL shape, grad => (reshape grad shape).map fun t => ([], t)
  | .dropoutL st, grad => (dropout_backward st grad).map fun t => ([], t)
  | .activationL dfun inputs, grad => some ([], activation_backward dfun inputs grad)

/-- `Net.backward`: fold backward through the layers in reverse order,
collecting each layer's `grads` dict; the result pairs the dicts — in
original layer order, as `StructuredParam(layer_grads[::-1])` builds
them — with the gradient w.r.t. the network input. -/
def net_backward : List LayerSt → Tensor → Option (List (List (String × Tensor)) × Tensor)
  | [], grad => some ([], grad)
  | l :: rest, grad =>
    (net_backward rest grad).bind fun r =>
      (layer_backward l r.2).map fun g => (g.1 :: r.1, g.2)

/-- Claim C9: in inference mode `Dropout.forward` returns its input
exactly and `Dropout.backward` signals a usage error; in training mode
`backward` returns the incoming gradient multiplied elementwise by the
scaled mask (`draw / keep_prob`) cached by the most recent forward
call. -/
theorem claim_C9_dropout (kp : ℚ) (mult mult2 : Option Tensor)
    (draw inputs grad : Tensor) :
    (dropout_forward ⟨kp, mult, false⟩ draw inputs).2 = inputs ∧
    dropout_backward ⟨kp, mult, false⟩ grad = none ∧
    dropout_backward (dropout_forward ⟨kp, mult2, true⟩ draw inputs).1 grad
      = some ⟨grad.shape, fun i => grad.data i * (draw.data i / kp)⟩ :=
  ⟨rfl, rfl, rfl⟩

theorem layer_backward_keys (l : LayerSt) (grad : Tensor)
    (g : List (String × Tensor) × Tensor) (h : layer_backward l grad = some g) :
    g.1.map Prod.fst = (layer_params l).map Prod.fst := by
  cases l with
  | dense w b inputs =>
    rw [layer_backward] at h
    rw [← Option.some.inj h]
    rfl
  | conv w b cache =>
    rw [layer_backward] at h
    rw [← Option.some.inj h]
    rfl
  | maxpool cache =>
    rw [layer_backward] at h
    obtain ⟨t, _, hg⟩ := Option.map_eq_some'.mp h
    rw [← hg]
    rfl
  | flattenL shape =>
    rw [layer_backward] at h
    obtain ⟨t, _, hg⟩ := Option.map_eq_some'.mp h
    rw [← hg]
    rfl
  | dropoutL st =>
    rw [layer_backward] at h
    obtain ⟨t, _, hg⟩ := Option.map_eq_some'.mp h
    rw [← hg]
    rfl
  | activationL dfun inputs =>
    rw [layer_backward] at h
    rw [← Option.some.inj h]
    rfl

/-- Claim C6 (amended): whenever backward succeeds, every layer's `grads`
dict has exactly the key list of its `params` dict, so the flattened
gradients align element-for-element (layer order, then key order) with
the flattened parameters of the same network.  The aligned tensors need
NOT have equal shapes: the counterexample shows Dense's bias gradient of
shape `[out]` against the bias parameter of shape `[1, out]` (they are
broadcast-compatible, not equal). -/
theorem claim_C6_grads_keys_align (net : List LayerSt) (grad : Tensor)
    (h : (net_backward net grad).isSome = true) :
    ((net_backward net grad).map fun r => r.1.map fun d => d.map Prod.fst)
        = some (net.map fun l => (layer_params l).map Prod.fst) ∧
    ((net_backward net grad).map fun r => r.1.flatMap fun d => d.map Prod.fst)
        = some (net.flatMap fun l => (layer_params l).map Prod.fst) := by
  induction net generalizing grad with
  | nil => exact ⟨rfl, rfl⟩
  | cons l rest ih =>
    cases hrest : net_backward rest grad with
    | none =>
      rw [net_backward, hrest] at h
      cases h
    | some r =>
      cases hl : layer_backward l r.2 with
      | none =>
        rw [net_backward, hrest] at h
        simp only [Option.some_bind, hl] at h
        cases h
      | some g =>
        have hkeys := layer_backward_keys l r.2 g hl
        have hih := ih grad (by rw [hrest]; rfl)
        rw [hrest] at hih
        have hih1 := Option.some.inj hih.1
        have hih2 := Option.some.inj hih.2
        have hstep : net_backward (l :: rest) grad = some (g.1 :: r.1, g.2) := by
          rw [net_backward, hrest]
          simp only [Option.some_bind, hl, Option.map_some']
        rw [hstep]
        constructor
        · simp only [Option.map_some', List.map_cons, Option.some.injEq, List.cons.injEq]
          exact ⟨hkeys, hih1⟩
        · simp only [Option.map_some', List.flatMap_cons, Option.some.injEq]
          rw [hkeys]
          exact congrArg (fun z => List.map Prod.fst (layer_params l) ++ z) hih2

/-- Witness for C6: a single initialized Dense layer; backward succeeds
and the gradient keys per layer come out as `["w", "b"]`, matching the
parameter keys. -/
theorem claim_C6_grads_keys_align_witness :
    ((net_backward [LayerSt.dense (tZeros [1, 2]) (tZeros [1, 2]) (tZeros [1, 1])]
        (tZeros [1, 2])).map fun r => r.1.map fun d => d.map Prod.fst)
      = some [["w", "b"]] :=
  (claim_C6_grads_keys_align
    [LayerSt.dense (tZeros [1, 2]) (tZeros [1, 2]) (tZeros [1, 1])]
    (tZeros [1, 2]) (by decide)).1

/-- Counterexample for C6 as stated: Dense with in=1, out=2, batch=1 —
`grads["b"] = np.sum(grad, axis=0)` has shape `[2]` while the parameter
`b` has shape `[1, 2]`: the aligned tensors do not have matching
shapes. -/
theorem claim_C6_grads_keys_align_counterexample :
    (((dense_backward (tZeros [1, 2]) (tZeros [1, 1]) (tZeros [1, 2])).1.getD 1
        ("", tZeros [])).2).shape = [2] ∧
    (tZeros [1, 2]).shape = [1, 2] ∧
    ([2] : List Nat) ≠ [1, 2] :=
  ⟨rfl, rfl, by decide⟩

/-- `StructuredParam.layer_data`: the ordered list of per-layer
key→tensor dicts (Python dicts preserve insertion order, modelled as
association lists). -/
abbrev SP := List (List (String × Tensor))

/-- The `values` getter: all tensors flattened in layer order, then key
order. -/
def sp_values (sp : SP) : List Tensor := sp.flatMap fun d => d.map Prod.snd

/-- One dict's share of the `values` setter: writes the next `d.length`
tensors over the dict's keys in order and returns the leftovers; `none`
models the `IndexError` raised when `values[i]` runs past the end. -/
def sp_set_keys : List (String × Tensor) → List Tensor →
    Option (List (String × Tensor) × List Tensor)
  | [], vs => some ([], vs)
  | _ :: _, [] => none
  | (k, _) :: rest, v :: vs =>
    (sp_set_keys rest vs).map fun r => ((k, v) :: r.1, r.2)

/-- The `values` setter walked over all layer dicts in order. -/
def sp_set_go : SP → List Tensor → Option (SP × List Tensor)
  | [], vs => some ([], vs)
  | d :: ds, vs =>
    (sp_set_keys d vs).bind fun r =>
      (sp_set_go ds r.2).map fun s => (r.1 :: s.1, s.2)

/-- The `values` setter (`sp.values = vs`): note that tensors beyond the
structure's flattened length are silently ignored — the loop indexes
`values[i]` only for as many keys as the structure holds. -/
def sp_set_values (sp : SP) (vs : List Tensor) : Option SP :=
  (sp_set_go sp vs).map Prod.fst

/-- The structure the setter produces: `sp`'s keys over a fresh value
list, consumed dict by dict. -/
def sp_rebuild : SP → List Tensor → SP
  | [], _ => []
  | d :: ds, vs =>
    (List.zipWith (fun kv v => (kv.1, v)) d (vs.take d.length)) :: sp_rebuild ds (vs.drop d.length)

theorem sp_set_keys_eq (d : List (String × Tensor)) :
    ∀ vs rest : List Tensor, vs.length = d.length →
      sp_set_keys d (vs ++ rest)
        = some (List.zipWith (fun kv v => (kv.1, v)) d vs, rest) := by
  induction d with
  | nil =>
    intro vs rest h
    rw [List.length_nil, List.length_eq_zero] at h
    subst h
    rfl
  | cons kv d ih =>
    intro vs rest h
    cases vs with
    | nil => simp at h
    | cons v vs =>
      cases kv with
      | mk k t =>
        simp only [List.cons_append, sp_set_keys, List.append_eq]
        rw [ih vs rest (by simpa using h)]
        rfl

theorem sp_set_keys_none (d : List (String × Tensor)) :
    ∀ vs : List Tensor, vs.length < d.length → sp_set_keys d vs = none := by
  induction d with
  | nil => intro vs h; simp at h
  | cons kv d ih =>
    intro vs h
    cases vs with
    | nil =>
      cases kv with
      | mk k t => rfl
    | cons v vs =>
      cases kv with
      | mk k t =>
        simp only [sp_set_keys]
        rw [ih vs (by simpa using h)]
        rfl

theorem sp_set_keys_split (d : List (String × Tensor)) (vs : List Tensor)
    (h : d.length ≤ vs.length) :
    sp_set_keys d vs
      = some (List.zipWith (fun kv v => (kv.1, v)) d (vs.take d.length),
          vs.drop d.length) := by
  have heq := sp_set_keys_eq d (vs.take d.length) (vs.drop d.length)
    (by rw [List.length_take]; omega)
  rwa [List.take_append_drop] at heq

theorem sp_values_cons (d : List (String × Tensor)) (ds : SP) :
    sp_values (d :: ds) = d.map Prod.snd ++ sp_values ds := by
  simp [sp_values]

theorem sp_set_go_eq (sp : SP) :
    ∀ vs rest : List Tensor, vs.length = (sp_values sp).length →
      sp_set_go sp (vs ++ rest) = some (sp_rebuild sp vs, rest) := by
  induction sp with
  | nil =>
    intro vs rest h
    simp only [sp_values, List.flatMap_nil, List.length_nil, List.length_eq_zero] at h
    subst h
    rfl
  | cons d ds ih =>
    intro vs rest h
    rw [sp_values_cons, List.length_append, List.length_map] at h
    have hd : d.length ≤ vs.length := by omega
    have hsplit : vs ++ rest = vs.take d.length ++ (vs.drop d.length ++ rest) := by
      rw [← List.append_assoc, List.take_append_drop]
    rw [sp_set_go, hsplit,
      sp_set_keys_eq d (vs.take d.length) (vs.drop d.length ++ rest)
        (by rw [List.length_take]; omega),
      Option.some_bind,
      ih (vs.drop d.length) rest (by rw [List.length_drop]; omega),
      Option.map_some']
    rfl

theorem sp_set_go_none (sp : SP) :
    ∀ vs : List Tensor, vs.length < (sp_values sp).length →
      sp_set_go sp vs = none := by
  induction sp with
  | nil => intro vs h; simp [sp_values] at h
  | cons d ds ih =>
    intro vs h
    rw [sp_values_cons, List.length_append, List.length_map] at h
    rcases em (vs.length < d.length) with hlt | hge
    · rw [sp_set_go, sp_set_keys_none d vs hlt]
      rfl
    · rw [sp_set_go, sp_set_keys_split d vs (by omega), Option.some_bind,
        ih (vs.drop d.length) (by rw [List.length_drop]; omega)]
      rfl

theorem zipWith_keys_snd (d : List (String × Tensor)) :
    List.zipWith (fun kv v => (kv.1, v)) d (d.map Prod.snd) = d := by
  induction d with
  | nil => rfl
  | cons kv d ih =>
    cases kv with
    | mk k t => simp [ih]

theorem sp_rebuild_values (sp : SP) : sp_rebuild sp (sp_values sp) = sp := by
  induction sp with
  | nil => rfl
  | cons d ds ih =>
    rw [sp_values_cons, sp_rebuild]
    have htake : (d.map Prod.snd ++ sp_values ds).take d.length = d.map Prod.snd := by
      rw [← List.length_map d Prod.snd, List.take_left]
    have hdrop : (d.map Prod.snd ++ sp_values ds).drop d.length = sp_values ds := by
      rw [← List.length_map d Prod.snd, List.drop_left]
    rw [htake, hdrop, zipWith_keys_snd, ih]

/-- Claim C7 (amended): the `values` setter writes the flat sequence
back over the nested structure in flattening order; it signals an error
(`IndexError`) exactly when the sequence is too short, but silently
ignores the extra values when the sequence is too long (see the
counterexample); and `unflatten(flatten(sp))` is the identity. -/
theorem claim_C7_sp_set_values (sp : SP) (vs : List Tensor) :
    (vs.length < (sp_values sp).length → sp_set_values sp vs = none) ∧
    ((sp_values sp).length ≤ vs.length →
      sp_set_values sp vs = some (sp_rebuild sp (vs.take (sp_values sp).length))) ∧
    sp_set_values sp (sp_values sp) = some sp := by
  refine ⟨?_, ?_, ?_⟩
  · intro h
    rw [sp_set_values, sp_set_go_none sp vs h]
    rfl
  · intro h
    have hgo := sp_set_go_eq sp (vs.take (sp_values sp).length)
      (vs.drop (sp_values sp).length) (by rw [List.length_take]; omega)
    rw [List.take_append_drop] at hgo
    rw [sp_set_values, hgo]
    rfl
  · have h := sp_set_go_eq sp (sp_values sp) [] rfl
    rw [List.append_nil] at h
    rw [sp_set_values, h, Option.map_some', sp_rebuild_values]

/-- Witness for C7: on a one-tensor structure, a too-short sequence is
rejected and the flatten/unflatten round trip is the identity. -/
theorem claim_C7_sp_set_values_witness :
    sp_set_values [[("w", tZeros [1])]] [] = none ∧
    sp_set_values [[("w", tZeros [1])]] (sp_values [[("w", tZeros [1])]])
      = some [[("w", tZeros [1])]] :=
  ⟨(claim_C7_sp_set_values [[("w", tZeros [1])]] []).1 (by decide),
   (claim_C7_sp_set_values [[("w", tZeros [1])]] (sp_values [[("w", tZeros [1])]])).2.2⟩

/-- Counterexample for C7 as stated: a structure whose flattened length
is 1 accepts a sequence of length 2 without any error — the extra tensor
is silently dropped, whereas the claim requires an error for every
length mismatch. -/
theorem claim_C7_sp_set_values_counterexample :
    ([tZeros [1], tZeros [1]].length ≠ (sp_values [[("w", tZeros [1])]]).length) ∧
    (sp_set_values [[("w", tZeros [1])]] [tZeros [1], tZeros [1]]).isSome = true :=
  ⟨by decide, by decide⟩

/-- Keys per layer dict — the spec's structural-congruence data:
two StructuredParams are congruent when they have the same number of
layer dicts with the same key lists. -/
def sp_keys (sp : SP) : List (List String) := sp.map fun d => d.map Prod.fst

/-- Elementwise combination of two same-shaped tensors (the equal-shape
instance of a numpy binary ufunc). -/
def tensor_zip (f : ℚ → ℚ → ℚ) (a b : Tensor) : Tensor :=
  ⟨a.shape, fun i => f (a.data i) (b.data i)⟩

/-- A non-mutating binary operator (`__add__`, `__sub__`, `__mul__`, …):
`obj = copy.deepcopy(self); obj.values = self.values <op> other.values;
return obj`.  The tensor-level numpy operation — including whatever
broadcasting it performs — is abstracted as the function `top`; the
container combines the two flattened value lists pointwise with it.
The triple records (returned object, self afterwards, other afterwards):
the deep copy leaves both operands untouched. -/
def sp_binop (top : Tensor → Tensor → Tensor) (a b : SP) : Option (SP × SP × SP) :=
  (sp_set_values a (List.zipWith top (sp_values a) (sp_values b))).map
    fun r => (r, a, b)

/-- An in-place operator (`__iadd__`, …): `self.values <op>= other;
return self`.  The pair records (returned object, self afterwards): the
returned object IS the mutated receiver. -/
def sp_ibinop (top : Tensor → Tensor → Tensor) (a b : SP) : Option (SP × SP) :=
  (sp_set_values a (List.zipWith top (sp_values a) (sp_values b))).map
    fun r => (r, r)

/-- The structure a binary operation produces. -/
def sp_binop_res (top : Tensor → Tensor → Tensor) (a b : SP) : SP :=
  sp_rebuild a (List.zipWith top (sp_values a) (sp_values b))

theorem sp_values_len_of_keys_congr :
    ∀ a b : SP, sp_keys a = sp_keys b →
      (sp_values a).length = (sp_values b).length := by
  intro a
  induction a with
  | nil =>
    intro b h
    cases b with
    | nil => rfl
    | cons d ds => simp [sp_keys] at h
  | cons d ds ih =>
    intro b h
    cases b with
    | nil => simp [sp_keys] at h
    | cons e es =>
      simp only [sp_keys, List.map_cons, List.cons.injEq] at h
      obtain ⟨h1, h2⟩ := h
      have hd : d.length = e.length := by
        have hlen := congrArg List.length h1
        simpa using hlen
      rw [sp_values_cons, sp_values_cons, List.length_append, List.length_append,
        List.length_map, List.length_map, hd, ih es h2]

theorem sp_keys_zipWith (d : List (String × Tensor)) :
    ∀ vs : List Tensor, d.length ≤ vs.length →
      (List.zipWith (fun kv v => (kv.1, v)) d vs).map Prod.fst = d.map Prod.fst := by
  induction d with
  | nil => intro vs _; rfl
  | cons kv d ih =>
    intro vs h
    cases vs with
    | nil => simp at h
    | cons v vs =>
      cases kv with
      | mk k t =>
        simp only [List.zipWith_cons_cons, List.map_cons, List.cons.injEq]
        exact ⟨trivial, ih vs (by simpa using h)⟩

theorem sp_keys_rebuild (sp : SP) :
    ∀ vs : List Tensor, (sp_values sp).length ≤ vs.length →
      sp_keys (sp_rebuild sp vs) = sp_keys sp := by
  induction sp with
  | nil => intro vs _; rfl
  | cons d ds ih =>
    intro vs h
    rw [sp_values_cons, List.length_append, List.length_map] at h
    simp only [sp_rebuild, sp_keys, List.map_cons, List.cons.injEq]
    constructor
    · exact sp_keys_zipWith d (vs.take d.length) (by rw [List.length_take]; omega)
    · exact ih (vs.drop d.length) (by rw [List.length_drop]; omega)

theorem snd_zipWith (d : List (String × Tensor)) :
    ∀ vs : List Tensor, vs.length = d.length →
      (List.zipWith (fun kv v => (kv.1, v)) d vs).map Prod.snd = vs := by
  induction d with
  | nil =>
    intro vs h
    rw [List.length_nil, List.length_eq_zero] at h
    subst h
    rfl
  | cons kv d ih =>
    intro vs h
    cases vs with
    | nil => simp at h
    | cons v vs =>
      cases kv with
      | mk k t =>
        simp only [List.zipWith_cons_cons, List.map_cons, List.cons.injEq]
        exact ⟨trivial, ih vs (by simpa using h)⟩

theorem sp_values_rebuild (sp : SP) :
    ∀ vs : List Tensor, vs.length = (sp_values sp).length →
      sp_values (sp_rebuild sp vs) = vs := by
  induction sp with
  | nil =>
    intro vs h
    simp only [sp_values, List.flatMap_nil, List.length_nil, List.length_eq_zero] at h
    subst h
    rfl
  | cons d ds ih =>
    intro vs h
    rw [sp_values_cons, List.length_append, List.length_map] at h
    rw [sp_rebuild, sp_values_cons,
      snd_zipWith d (vs.take d.length) (by rw [List.length_take]; omega),
      ih (vs.drop d.length) (by rw [List.length_drop]; omega),
      List.take_append_drop]

/-- Claim C8: for structurally congruent operands (same layer count and
same per-layer key lists — the spec's congruence, with no condition on
shapes) and any tensor-level elementwise operation, the non-mutating
operators return a fresh structurally congruent result holding the
pointwise tensor combinations in flattening order while self and other
are left unchanged, whereas the in-place variants return the mutated
receiver itself, holding the same combined values. -/
theorem claim_C8_sp_ops (top : Tensor → Tensor → Tensor) (a b : SP)
    (hcong : sp_keys a = sp_keys b) :
    sp_binop top a b = some (sp_binop_res top a b, a, b) ∧
    sp_ibinop top a b = some (sp_binop_res top a b, sp_binop_res top a b) ∧
    sp_keys (sp_binop_res top a b) = sp_keys a ∧
    sp_values (sp_binop_res top a b)
      = List.zipWith top (sp_values a) (sp_values b) := by
  have hlen := sp_values_len_of_keys_congr a b hcong
  have hzlen : (List.zipWith top (sp_values a) (sp_values b)).length
      = (sp_values a).length := by
    rw [List.length_zipWith]
    omega
  have hset : sp_set_values a (List.zipWith top (sp_values a) (sp_values b))
      = some (sp_binop_res top a b) := by
    have h := sp_set_go_eq a (List.zipWith top (sp_values a) (sp_values b)) [] hzlen
    rw [List.append_nil] at h
    rw [sp_set_values, h, Option.map_some']
    rfl
  refine ⟨?_, ?_, ?_, ?_⟩
  · rw [sp_binop, hset]
    rfl
  · rw [sp_ibinop, hset]
    rfl
  · exact sp_keys_rebuild a _ (by omega)
  · exact sp_values_rebuild a _ hzlen

/-- Witness for C8 on two congruent one-tensor structures with
elementwise addition: the non-mutating operator leaves both operands
unchanged and returns a result with the same key structure. -/
theorem claim_C8_sp_ops_witness :
    sp_binop (tensor_zip (fun p q => p + q)) [[("w", tZeros [1])]] [[("w", tZeros [1])]]
      = some (sp_binop_res (tensor_zip (fun p q => p + q))
            [[("w", tZeros [1])]] [[("w", tZeros [1])]],
          [[("w", tZeros [1])]], [[("w", tZeros [1])]]) ∧
    sp_keys (sp_binop_res (tensor_zip (fun p q => p + q))
        [[("w", tZeros [1])]] [[("w", tZeros [1])]])
      = [["w"]] := by
  have h := claim_C8_sp_ops (tensor_zip (fun p q => p + q)) [[("w", tZeros [1])]]
    [[("w", tZeros [1])]] (by decide)
  exact ⟨h.1, h.2.2.1.trans (by decide)⟩

end TinyNN
